import Mathlib

/-!
Verification development for the SynLedger core (C++ sources).

The C++ data model and operations are shallowly embedded:
* machine integers (`size_t`) become `Nat` with explicit wraparound at `2 ^ 64`
  where the source can wrap (`usizeMod`, `usizeSub`);
* C++ `double` fields become `Rat`; the program only ever adds, subtracts,
  multiplies and divides, so rationals model every value the program computes
  (transaction amounts are restricted to integral values, rendered the way the
  two C++ formatting paths render integral doubles);
* the external `Crypto::hash` collaborator is a function parameter
  `hash : String -> String`; witnesses instantiate it with the concrete
  injective function `hashC`;
* methods that throw become `Except`; all other mutation is explicit state
  passing.

Sources embedded: src/src/ledger/block.cpp, src/unnamed/part_009 (Ledger),
src/src/consensus/posyg_engine.cpp, src/src/main.cpp (Consensus).
-/

namespace SynLedger

/-- Size of the C++ `size_t` value space (64-bit). -/
def usizeSize : Nat := 2 ^ 64

/-- Wraparound of a `size_t` computation. -/
def usizeMod (a : Nat) : Nat := a % usizeSize

/-- C++ `size_t` subtraction `a - b` for `a b < 2 ^ 64`: wraps modulo `2 ^ 64`. -/
def usizeSub (a b : Nat) : Nat := (a + (usizeSize - b % usizeSize)) % usizeSize

/-- enum class TransactionType (block.hpp). -/
inductive TransactionType where
  | standardPayment
  | governance
  | smartContractExecution
deriving DecidableEq, Repr

/-- static_cast of the enum used by Transaction::serialize. -/
def TransactionType.toInt : TransactionType → Int
  | .standardPayment => 0
  | .governance => 1
  | .smartContractExecution => 2

/-- struct Transaction (block.hpp).  The C++ `amount` is a `double`; the model
restricts it to integral values (`Int`), which is closed under everything the
embedded code does with it. -/
structure Transaction where
  sender : String
  receiver : String
  amount : Int
  signature : String
  type : TransactionType
  data : String
deriving DecidableEq, Repr

/-- Rendering of an integral `double` by `operator<<` on an `ostringstream`
(used by Transaction::serialize): integral values print without a decimal
point. -/
def streamDouble (a : Int) : String := toString a

/-- Rendering of an integral `double` by `std::to_string` (used by
Ledger::calculate_merkle_root): six fixed decimals. -/
def toStdStringDouble (a : Int) : String := toString a ++ ".000000"

/-- Transaction::serialize (block.cpp lines 13-17). -/
def Transaction.serialize (t : Transaction) : String :=
  t.sender ++ "|" ++ t.receiver ++ "|" ++ streamDouble t.amount ++ "|"
    ++ t.signature ++ "|" ++ toString t.type.toInt ++ "|" ++ t.data

/-- class Block (block.hpp): `block_hash` is the mutable cached hash, updated
only by `calculate_block_hash` (and constructors leave it empty). -/
structure Block where
  block_number : Nat
  previous_block_hash : String
  timestamp : Nat
  transactions : List Transaction
  block_hash : String
  validator_signatures : List String
  required_signatures : Nat
deriving DecidableEq, Repr

instance : Inhabited Block :=
  ⟨{ block_number := 0, previous_block_hash := "", timestamp := 0,
     transactions := [], block_hash := "", validator_signatures := [],
     required_signatures := 0 }⟩

/-- Block::Block(size_t, const std::string, size_t) (block.cpp lines 38-39);
the timestamp the C++ constructor reads from the clock is passed explicitly.
The cached `block_hash` starts out as the empty string and no transactions or
signatures are present. -/
def Block.mkNew (block_number : Nat) (previous_block_hash : String)
    (required_signatures : Nat) (timestamp : Nat) : Block :=
  { block_number := block_number, previous_block_hash := previous_block_hash,
    timestamp := timestamp, transactions := [], block_hash := "",
    validator_signatures := [], required_signatures := required_signatures }

/-- Concatenation of the serializations of a transaction list, as built up by
the loop in Block::calculate_block_hash. -/
def txConcat (txs : List Transaction) : String :=
  String.join (txs.map Transaction.serialize)

/-- Block::calculate_block_hash (block.cpp lines 50-59), return value: hash of
previous hash, then the timestamp as text, then each serialized transaction. -/
def Block.calculate_block_hash (hash : String → String) (b : Block) : String :=
  hash (b.previous_block_hash ++ toString b.timestamp ++ txConcat b.transactions)

/-- The same method also stores the recomputed hash into the mutable cache. -/
def Block.recompute_hash (hash : String → String) (b : Block) : Block :=
  { b with block_hash := b.calculate_block_hash hash }

/-- Block::sign_block (block.cpp lines 61-67): appends while strictly below
`required_signatures`, otherwise returns false without appending. -/
def Block.sign_block (b : Block) (validator_signature : String) : Block × Bool :=
  if b.validator_signatures.length < b.required_signatures then
    ({ b with validator_signatures := b.validator_signatures ++ [validator_signature] }, true)
  else
    (b, false)

/-- Block::verify_signatures (block.cpp lines 69-71). -/
def Block.verify_signatures (b : Block) : Bool :=
  b.required_signatures ≤ b.validator_signatures.length

/-- Block::get_signature_count (block.cpp lines 122-124). -/
def Block.get_signature_count (b : Block) : Nat :=
  b.validator_signatures.length

/-- A sequence of sign_block calls, each keeping the (possibly unchanged)
block and discarding the returned Bool. -/
def signSeq (b : Block) (sigs : List String) : Block :=
  sigs.foldl (fun bl sg => (bl.sign_block sg).1) b

/-- Concrete stand-in for the external Crypto::hash collaborator, used by
witnesses and counterexamples; it is injective (`hashC_inj`), matching the
spec assumption that the supplied hash is collision-free. -/
def hashC (s : String) : String := String.mk (Char.ofNat 35 :: s.data)

/-- Lookup in an association list with the default-on-absence behavior of
`std::map::operator[]` reads (value-initialized default). -/
def lookupD (m : List (String × α)) (k : String) (d : α) : α :=
  match m with
  | [] => d
  | (k1, v) :: rest => if k1 = k then v else lookupD rest k d

/-- Insert-or-update for an association list, modelling writes through
`std::map::operator[]`.  (The C++ map is key-ordered; only the key-value
mapping, not the iteration order, is observable in the embedded claims.) -/
def upsert (m : List (String × α)) (k : String) (v : α) : List (String × α) :=
  match m with
  | [] => [(k, v)]
  | (k1, v1) :: rest => if k1 = k then (k1, v) :: rest else (k1, v1) :: upsert rest k v

/-- class Ledger (ledger.hpp): canonical chain, fork bookkeeping, confirmation
map and transaction pool.  `current_block_number` is a `size_t` counter. -/
structure Ledger where
  chain : List Block
  difficulty : Nat
  current_block_number : Nat
  forks : List (String × List Block)
  current_chain_tip_hash : String
  fork_lengths : List (String × Nat)
  fork_difficulties : List (String × Nat)
  confirmed_blocks : List (String × Bool)
  transaction_pool : List Transaction
deriving DecidableEq, Repr

/-- Ledger::Ledger (part_009 lines 6-13): builds and signs the genesis block,
computes its hash into the cache and makes it the tip.  The timestamp the
genesis Block constructor reads from the clock is passed explicitly. -/
def Ledger.init (hash : String → String) (initial_difficulty : Nat)
    (genesis_ts : Nat) : Ledger :=
  let g0 := Block.mkNew 0 "0" 1 genesis_ts
  let g1 := (g0.sign_block "Genesis Block Signature").1
  let g2 := g1.recompute_hash hash
  { chain := [g2], difficulty := initial_difficulty, current_block_number := 0,
    forks := [], current_chain_tip_hash := g2.block_hash, fork_lengths := [],
    fork_difficulties := [], confirmed_blocks := [], transaction_pool := [] }

/-- Error text thrown by Ledger::add_block on a tip mismatch. -/
def chainLinkageMsg : String := "Block does not fit the current chain tip!"

/-- Ledger::add_block (part_009 lines 15-23).  The mismatch branch throws
before any field is written, so it is an `Except.error` carrying no state. -/
def Ledger.add_block (l : Ledger) (block : Block) : Except String Ledger :=
  if block.previous_block_hash = l.current_chain_tip_hash then
    .ok { l with chain := l.chain ++ [block],
                 current_block_number := usizeMod (l.current_block_number + 1),
                 current_chain_tip_hash := block.block_hash }
  else
    .error chainLinkageMsg

/-- Running Ledger::add_block as the C++ caller observes it: the thrown
exception leaves the object exactly as it was on entry (the throw in
part_009 line 21 precedes every mutation). -/
def Ledger.add_block_run (l : Ledger) (block : Block) : Ledger × Bool :=
  match l.add_block block with
  | .ok l1 => (l1, true)
  | .error _ => (l, false)

/-- Sequential add_block calls, stopping at the first thrown error. -/
def addBlocks : Ledger → List Block → Except String Ledger
  | l, [] => .ok l
  | l, b :: rest =>
    match l.add_block b with
    | .ok l1 => addBlocks l1 rest
    | .error e => .error e

/-- Ledger::add_fork_block (part_009 lines 25-35). -/
def Ledger.add_fork_block (l : Ledger) (fork_tip : String) (block : Block) : Ledger :=
  let l1 :=
    if lookupD (l.forks.map (fun kv => (kv.1, true))) fork_tip false then l
    else { l with forks := upsert l.forks fork_tip [],
                  fork_lengths := upsert l.fork_lengths fork_tip 0,
                  fork_difficulties := upsert l.fork_difficulties fork_tip 0 }
  let newSeq := lookupD l1.forks fork_tip [] ++ [block]
  { l1 with forks := upsert l1.forks fork_tip newSeq,
            fork_lengths := upsert l1.fork_lengths fork_tip newSeq.length,
            fork_difficulties := upsert l1.fork_difficulties fork_tip
              (usizeMod (lookupD l1.fork_difficulties fork_tip 0 + l1.difficulty)) }

/-- Ledger::get_latest_block (part_009 lines 37-39): `chain.back()`; the chain
is nonempty in every state the constructor and operations produce. -/
def Ledger.get_latest_block (l : Ledger) : Block :=
  (l.chain.getLast?).getD default

/-- Ledger::get_blockchain_length (part_009 lines 109-111). -/
def Ledger.get_blockchain_length (l : Ledger) : Nat := l.chain.length

/-- Loop body of Ledger::validate_chain (part_009 lines 50-63), carrying the
value the mutable `block_hash` member of the previous block holds when the
iteration reads it.  The self-check on line 59 compares
`current_block.get_block_hash()` with `current_block.calculate_block_hash()`,
but both return references to the same mutable `block_hash` member that
`calculate_block_hash` (block.cpp lines 50-59) has just overwritten in place,
so by the time the comparison runs both sides are the freshly written string:
that branch can never fire and contributes no check.  Its lasting effect is
the in-place refresh of the cache, which the recursion models by passing the
recomputed hash of the current block as the predecessor hash that the next
iteration's linkage check reads. -/
def validateChainAux (hash : String → String) : String → List Block → Bool
  | _, [] => true
  | prev_hash, cur :: rest =>
    (cur.previous_block_hash == prev_hash)
      && validateChainAux hash (Block.calculate_block_hash hash cur) rest

/-- Ledger::validate_chain (part_009 lines 49-65): the first pair is checked
against block 0's cached hash (block 0 is never recomputed); every later pair
is checked against the predecessor's freshly recomputed hash, because the
previous iteration's dead self-check rewrote the predecessor's cache. -/
def Ledger.validate_chain (hash : String → String) (l : Ledger) : Bool :=
  match l.chain with
  | [] => true
  | b :: rest => validateChainAux hash b.block_hash rest

/-- The value the `block_hash` cache of the last block of `xs` holds after
the validate_chain walk has passed over `xs`, starting from predecessor hash
`h0`: `h0` when `xs` is empty, otherwise the recomputed hash of the last
block of `xs`. -/
def carriedHash (hash : String → String) (h0 : String) (xs : List Block) : String :=
  match xs.getLast? with
  | none => h0
  | some b => Block.calculate_block_hash hash b

/-- Ledger::rollback_chain (part_009 lines 90-99): refuses `k >= chain.size()`,
otherwise truncates, decrements the `size_t` height counter and re-reads the
tip from the new last block. -/
def Ledger.rollback_chain (l : Ledger) (blocks_to_rollback : Nat) : Ledger × Bool :=
  if l.chain.length ≤ blocks_to_rollback then (l, false)
  else
    let newChain := l.chain.take (l.chain.length - blocks_to_rollback)
    ({ l with chain := newChain,
              current_block_number := usizeSub l.current_block_number blocks_to_rollback,
              current_chain_tip_hash := ((newChain.getLast?).getD default).block_hash },
     true)

/-- Ledger::prune_forks (part_009 lines 168-176): erases every fork entry
whose tracked length is below `current_block_number - 10`, a `size_t`
subtraction that wraps around when the height counter is below 10. -/
def Ledger.prune_forks (l : Ledger) : Ledger :=
  let keep := fun (kv : String × List Block) =>
    ¬ (lookupD l.fork_lengths kv.1 0 < usizeSub l.current_block_number 10)
  { l with forks := l.forks.filter keep }

/-- Leaf hash built by Ledger::calculate_merkle_root (part_009 line 130):
sender, receiver, `std::to_string(amount)` and signature concatenated with no
separators; `type` and `data` do not participate. -/
def merkleLeaf (hash : String → String) (tx : Transaction) : String :=
  hash (tx.sender ++ tx.receiver ++ toStdStringDouble tx.amount ++ tx.signature)

/-- One pass of the inner pairing loop (part_009 lines 138-142), applied to an
even-length level. -/
def combineLevel (hash : String → String) : List String → List String
  | [] => []
  | [_] => []
  | x :: y :: rest => hash (x ++ y) :: combineLevel hash rest

/-- The while loop of Ledger::calculate_merkle_root (part_009 lines 133-145):
duplicate the last hash on an odd level, then pair-combine, until at most one
hash remains. -/
def merkleLoop (hash : String → String) (hs : List String) : String :=
  if hstop : hs.length ≤ 1 then (hs.headD "")
  else
    merkleLoop hash (combineLevel hash
      (if hs.length % 2 ≠ 0 then hs ++ [(hs.getLast?).getD ""] else hs))
termination_by hs.length
decreasing_by
  have hlen : ∀ l : List String, (combineLevel hash l).length = l.length / 2 := by
    intro l
    induction l using combineLevel.induct hash with
    | case1 => simp [combineLevel]
    | case2 x => simp [combineLevel]
    | case3 x y rest ih =>
      simp only [combineLevel, List.length_cons, ih]
      omega
  by_cases hodd : hs.length % 2 = 0 <;> simp [hlen, hodd] <;> omega

/-- Ledger::calculate_merkle_root (part_009 lines 123-146). -/
def Ledger.calculate_merkle_root (hash : String → String)
    (transactions : List Transaction) : String :=
  if transactions.isEmpty then ""
  else merkleLoop hash (transactions.map (merkleLeaf hash))

/-- Constants from posyg_engine.hpp lines 18-27 (doubles become `Rat`). -/
def PARTICIPANT_HONEST : Int := 1

def PARTICIPANT_DISHONEST : Int := 0

def INITIAL_SYNERGY : ℚ := 100

def PENALTY_INCREMENT : ℚ := 5

def REWARD_INCREMENT : ℚ := 5

def SLASH_PENALTY : ℚ := 100

def INITIAL_RESTORE_SYNERGY : ℚ := 50

def MAX_ECONOMIC_ACTIVITY : Int := 10

/-- struct Participant (posyg_engine.hpp lines 37-75). -/
structure Participant where
  id : Nat
  synergy : ℚ
  reward : ℚ
  penalty : ℚ
  violations_count : Int
  behavior : Int
  economic_activity : Int
  governance_activity : Int
  slashed : Bool
  economic_contribution : ℚ
deriving DecidableEq, Repr

/-- Participant::Participant(size_t, int) (posyg_engine.hpp lines 65-68). -/
def Participant.mkNew (id : Nat) (behavior : Int) : Participant :=
  { id := id, synergy := INITIAL_SYNERGY, reward := 0, penalty := 0,
    violations_count := 0, behavior := behavior, economic_activity := 1,
    governance_activity := 1, slashed := false, economic_contribution := 0 }

instance : Inhabited Participant := ⟨Participant.mkNew 0 PARTICIPANT_HONEST⟩

/-- Participant::detect_suspicious_behavior (posyg_engine.cpp lines 23-25). -/
def Participant.detect_suspicious_behavior (p : Participant) : Bool :=
  4 < p.economic_activity && 2 < p.governance_activity

/-- Participant::apply_slash (posyg_engine.cpp lines 27-33): idempotent. -/
def Participant.apply_slash (p : Participant) : Participant :=
  if p.slashed then p
  else { p with slashed := true, penalty := p.penalty + SLASH_PENALTY, synergy := 0 }

/-- Participant::restore_after_slash (posyg_engine.cpp lines 35-40). -/
def Participant.restore_after_slash (p : Participant) : Participant :=
  if p.slashed then { p with slashed := false, synergy := INITIAL_RESTORE_SYNERGY }
  else p

/-- Trailing clamp of Participant::update_synergy (posyg_engine.cpp lines
18-20): negative synergy is reset to zero. -/
def clampSynergy (p : Participant) : Participant :=
  if p.synergy < 0 then { p with synergy := 0 } else p

/-- Participant::update_synergy (posyg_engine.cpp lines 6-21): honest gain,
dishonest loss with a possible suspicion slash, then clamp synergy at zero. -/
def Participant.update_synergy (p : Participant) : Participant :=
  clampSynergy
    (if p.behavior = PARTICIPANT_HONEST ∧ ¬ p.slashed then
      { p with synergy := p.synergy + 10 * p.economic_activity,
               reward := p.reward + REWARD_INCREMENT * p.economic_activity }
    else if ¬ p.slashed then
      let p2 := { p with synergy := p.synergy - 10 * p.economic_activity,
                         penalty := p.penalty + PENALTY_INCREMENT * p.economic_activity }
      if p2.detect_suspicious_behavior then
        Participant.apply_slash { p2 with penalty := p2.penalty + 10 }
      else p2
    else p)

/-- Truncation toward zero of a `double`, as in `static_cast<int>`. -/
def truncInt (q : ℚ) : Int := if q < 0 then -(Int.floor (-q)) else Int.floor q

/-- Participant::update_economic_activity (posyg_engine.cpp lines 42-45). -/
def Participant.update_economic_activity (p : Participant) (contribution : ℚ) : Participant :=
  { p with economic_contribution := p.economic_contribution + contribution,
           economic_activity := min (truncInt (contribution / 10)) MAX_ECONOMIC_ACTIVITY }

/-- class PoSygEngine private state (posyg_engine.hpp lines 101-110). -/
structure PoSygEngine where
  num_participants : Nat
  participants : List Participant
  dynamic_synergy_gain : ℚ
  dynamic_penalty_increment : ℚ
  dynamic_conversion_rate : ℚ
  slash_penalty : ℚ
  total_economic_activity : ℚ
deriving Repr

/-- PoSygEngine::PoSygEngine (posyg_engine.cpp lines 47-59): participant `i`
gets id `i` and honest behavior. -/
def PoSygEngine.init (num_participants : Nat) : PoSygEngine :=
  { num_participants := num_participants,
    participants := (List.range num_participants).map
      (fun i => Participant.mkNew i PARTICIPANT_HONEST),
    dynamic_synergy_gain := 10, dynamic_penalty_increment := PENALTY_INCREMENT,
    dynamic_conversion_rate := 1 / 10, slash_penalty := SLASH_PENALTY,
    total_economic_activity := 0 }

/-- PoSygEngine::adjust_network_parameters (posyg_engine.cpp lines 65-88).
With zero participants the C++ ratio is NaN and `NaN > 0.5` is false, matching
the rational `0 / 0 = 0` here: both take the else branch. -/
def PoSygEngine.adjust_network_parameters (e : PoSygEngine) : PoSygEngine :=
  let dishonest_count := e.participants.countP (fun p => ¬ p.behavior = PARTICIPANT_HONEST)
  let dishonest_ratio : ℚ := (dishonest_count : ℚ) / (e.num_participants : ℚ)
  let e1 :=
    if 1 / 2 < dishonest_ratio then
      { e with dynamic_penalty_increment := e.dynamic_penalty_increment * (11 / 10),
               dynamic_synergy_gain := e.dynamic_synergy_gain * (9 / 10) }
    else
      { e with dynamic_penalty_increment := e.dynamic_penalty_increment * (19 / 20),
               dynamic_synergy_gain := e.dynamic_synergy_gain * (21 / 20) }
  { e1 with dynamic_conversion_rate := 1 / 10 + dishonest_ratio * (1 / 20) }

/-- Per-participant body of the run_cycle loop (posyg_engine.cpp lines 98-106):
draw a value in 0..9, below 3 means dishonest, then update synergy.  The
random draws are an explicit input, indexed by participant position. -/
def cycleStep (rand_val : Nat) (p : Participant) : Participant :=
  Participant.update_synergy
    { p with behavior := if rand_val < 3 then PARTICIPANT_DISHONEST else PARTICIPANT_HONEST }

/-- Index-carrying loop over the participants for run_cycle. -/
def cycleLoop (draws : Nat → Nat) : Nat → List Participant → List Participant
  | _, [] => []
  | i, p :: rest => cycleStep (draws i) p :: cycleLoop draws (i + 1) rest

/-- PoSygEngine::process_slashing (posyg_engine.cpp lines 113-120). -/
def PoSygEngine.process_slashing (e : PoSygEngine) : PoSygEngine :=
  let step := fun (p : Participant) =>
    if 3 < p.violations_count ∧ ¬ p.slashed then p.apply_slash else p
  { e with participants := e.participants.map step }

/-- PoSygEngine::distribute_rewards (posyg_engine.cpp lines 122-139):
proportional reward for non-slashed participants, skipped when the non-slashed
synergy total is not positive. -/
def PoSygEngine.distribute_rewards (e : PoSygEngine) : PoSygEngine :=
  let total_synergy : ℚ :=
    ((e.participants.filter (fun p => !p.slashed)).map Participant.synergy).sum
  let pay := fun (p : Participant) =>
    if p.slashed then p
    else { p with reward := p.reward + p.synergy / total_synergy * e.total_economic_activity }
  if 0 < total_synergy then { e with participants := e.participants.map pay }
  else e

/-- PoSygEngine::run_cycle (posyg_engine.cpp lines 90-111). -/
def PoSygEngine.run_cycle (e : PoSygEngine) (draws : Nat → Nat) : PoSygEngine :=
  let e1 := e.adjust_network_parameters
  let e2 := { e1 with participants := cycleLoop draws 0 e1.participants }
  (e2.process_slashing).distribute_rewards

/-- Forward accumulation of PoSygEngine::convert_synergy_to_tokens
(posyg_engine.cpp lines 183-190): non-slashed participants contribute
`synergy * rate` and have their synergy reset to zero. -/
def convertLoop (conversion_rate : ℚ) : List Participant → List Participant × ℚ
  | [] => ([], 0)
  | p :: rest =>
    let r := convertLoop conversion_rate rest
    if p.slashed then (p :: r.1, r.2)
    else ({ p with synergy := 0 } :: r.1, p.synergy * conversion_rate + r.2)

/-- PoSygEngine::convert_synergy_to_tokens (posyg_engine.cpp lines 180-191);
the `total_tokens` out-parameter becomes the second component. -/
def PoSygEngine.convert_synergy_to_tokens (e : PoSygEngine) (conversion_rate : ℚ) :
    PoSygEngine × ℚ :=
  let r := convertLoop conversion_rate e.participants
  ({ e with participants := r.1 }, r.2)

/-- In-place update of one list element, used for mutations reaching a single
participant through PoSygEngine::get_participant references. -/
def listModify (l : List α) (i : Nat) (f : α → α) : List α :=
  match l, i with
  | [], _ => []
  | x :: rest, 0 => f x :: rest
  | x :: rest, n + 1 => x :: listModify rest n f

/-- Mutation of the participant with index `i` (a `get_participant` reference;
`std::vector::at` throws on an out-of-range id, so an out-of-range `i` mutates
nothing). -/
def PoSygEngine.modifyParticipant (e : PoSygEngine) (i : Nat)
    (f : Participant → Participant) : PoSygEngine :=
  { e with participants := listModify e.participants i f }

/-- Every operation of the repository that mutates Synergy Registry state,
including the mutations driven from Consensus (slash_validator,
validate_and_slash, Consensus::distribute_rewards in main.cpp). -/
inductive EngineOp where
  | runCycle (draws : Nat → Nat)
  | applySlashingMechanism
  | convert (rate : ℚ)
  | adjustParams
  | applySlash (i : Nat)
  | restore (i : Nat)
  | updateEconomic (i : Nat) (c : ℚ)
  | consensusReward (validators : List Nat) (amount : ℚ)
  | consensusValidateAndSlash (validators : List Nat)

/-- Effect of each registry-mutating operation. -/
def applyOp : EngineOp → PoSygEngine → PoSygEngine
  | .runCycle draws, e => e.run_cycle draws
  | .applySlashingMechanism, e => e.process_slashing
  | .convert rate, e => (e.convert_synergy_to_tokens rate).1
  | .adjustParams, e => e.adjust_network_parameters
  | .applySlash i, e => e.modifyParticipant i Participant.apply_slash
  | .restore i, e => e.modifyParticipant i Participant.restore_after_slash
  | .updateEconomic i c, e => e.modifyParticipant i (fun p => p.update_economic_activity c)
  | .consensusReward vs amount, e =>
    vs.foldl (fun acc i => acc.modifyParticipant i
      (fun p => { p with reward := p.reward + amount })) e
  | .consensusValidateAndSlash vs, e =>
    vs.foldl (fun acc i => acc.modifyParticipant i
      (fun p => if p.detect_suspicious_behavior then p.apply_slash else p)) e

/-- Registry states reachable from construction through the mutating
operations of the repository. -/
inductive Reachable : PoSygEngine → Prop where
  | init (n : Nat) : Reachable (PoSygEngine.init n)
  | step (e : PoSygEngine) (op : EngineOp) : Reachable e → Reachable (applyOp op e)

/-- class Consensus (consensus.hpp): per-round coordinator state.  `sent`
records the messages pushed through the P2P network collaborator
(`send_message(peer, text)`). -/
structure Consensus where
  num_validators : Nat
  validators : List Nat
  current_block : Block
  engine : PoSygEngine
  ledger : Ledger
  slashing_penalty : ℚ
  reward_for_validators : ℚ
  sent : List (Nat × String)

/-- Consensus::Consensus (main.cpp lines 94-101): validators 0..n-1,
current_block = Block(0, "", 2), penalty 100, reward 50. -/
def Consensus.init (num_validators : Nat) (engine : PoSygEngine) (ledger : Ledger)
    (ctor_ts : Nat) : Consensus :=
  { num_validators := num_validators, validators := List.range num_validators,
    current_block := Block.mkNew 0 "" 2 ctor_ts, engine := engine, ledger := ledger,
    slashing_penalty := 100, reward_for_validators := 50, sent := [] }

/-- Consensus::dynamic_network_management (main.cpp lines 216-220). -/
def Consensus.dynamic_network_management (c : Consensus) : Consensus :=
  { c with slashing_penalty := c.slashing_penalty * (21 / 20),
           reward_for_validators := c.reward_for_validators * (51 / 50) }

/-- Consensus::create_new_block (main.cpp lines 129-134): block number is the
chain length, previous hash is the tip block cached hash, 2 signatures
required; the constructor leaves the new cached block_hash empty. -/
def Consensus.create_new_block (c : Consensus) (ts : Nat) : Block :=
  Block.mkNew c.ledger.get_blockchain_length (c.ledger.get_latest_block).block_hash 2 ts

/-- Consensus::validate_block (main.cpp lines 136-150): structural check that
neither the previous hash nor the cached block hash is empty. -/
def Consensus.validate_block (_c : Consensus) (block : Block) : Bool :=
  if block.previous_block_hash = "" then false
  else if block.block_hash = "" then false
  else true

/-- Signature-collection loop of Consensus::handle_multisig (main.cpp lines
159-173), sequentialised: each validator signs the local copy until a
sign_block call reports the threshold, which raises the early-exit flag. -/
def multisigLoop (b : Block) (num_validators : Nat) : Block :=
  ((List.range num_validators).foldl
    (fun (acc : Block × Bool) i =>
      if acc.2 then acc
      else
        let r := acc.1.sign_block ("Signature_" ++ toString i)
        (r.1, if r.2 then acc.2 else true))
    (b, false)).1

/-- Consensus::handle_multisig (main.cpp lines 152-182): works on
`Block block_copy = block` only; the copy (second component) is dropped by
every caller, and no Consensus, ledger or engine state is written. -/
def Consensus.handle_multisig (c : Consensus) (block : Block) : Consensus × Block :=
  (c, multisigLoop block c.num_validators)

/-- Consensus::finalize_block (main.cpp lines 184-188): stores the block as
current_block and broadcasts a notice to peer 0; the ledger is not touched. -/
def Consensus.finalize_block (c : Consensus) (block : Block) : Consensus :=
  { c with current_block := block,
           sent := c.sent ++ [(0, "Finalized block with hash: " ++ block.block_hash)] }

/-- Consensus::validate_and_slash (main.cpp lines 196-204). -/
def Consensus.validate_and_slash (c : Consensus) : Consensus :=
  { c with engine := applyOp (.consensusValidateAndSlash c.validators) c.engine }

/-- Consensus::distribute_rewards (main.cpp lines 206-214). -/
def Consensus.distribute_rewards (c : Consensus) : Consensus :=
  { c with engine := applyOp (.consensusReward c.validators c.reward_for_validators) c.engine }

/-- Consensus::initiate_consensus (main.cpp lines 105-127): adjust parameters,
draft a block, and when validation passes run signature collection followed
unconditionally by finalize_block; then slash and reward. -/
def Consensus.initiate_consensus (c : Consensus) (ts : Nat) : Consensus :=
  let c1 := c.dynamic_network_management
  let new_block := c1.create_new_block ts
  let c2 :=
    if c1.validate_block new_block then
      Consensus.finalize_block (c1.handle_multisig new_block).1 new_block
    else c1
  (c2.validate_and_slash).distribute_rewards

/-- Success observation for Ledger::add_block (true when no exception). -/
def addBlockOk (l : Ledger) (b : Block) : Bool :=
  match l.add_block b with
  | .ok _ => true
  | .error _ => false

/-- Stored-field linkage of a chain: each block's previous_block_hash equals
its predecessor's cached block_hash.  This is the property add_block checks
and maintains on the stored fields. -/
def linkedB : List Block → Bool
  | [] => true
  | [_] => true
  | p :: c :: rest => (c.previous_block_hash == p.block_hash) && linkedB (c :: rest)

/-- Cached hash of the last block of a chain, the value add_block and
rollback_chain keep `current_chain_tip_hash` equal to. -/
def tipOf (c : List Block) : String := ((c.getLast?).getD default).block_hash

/-- Duplicate-padding of an odd level. -/
def padEven (l : List String) : List String :=
  if l.length % 2 = 0 then l else l ++ [(l.getLast?).getD ""]

/-- Declarative merkle combination following the words of the spec: pairwise-
combine hashes level by level, duplicating the last hash of an odd level,
until one hash remains; the empty input gives the empty root.  It is compared
against the implementation loop in the C8 theorem. -/
def merkleSpec (hash : String → String) (l : List String) : String :=
  match l with
  | [] => ""
  | [x] => x
  | x :: y :: rest => merkleSpec hash (combineLevel hash (padEven (x :: y :: rest)))
termination_by l.length
decreasing_by
  have hlen : ∀ l2 : List String, (combineLevel hash l2).length = l2.length / 2 := by
    intro l2
    induction l2 using combineLevel.induct hash with
    | case1 => simp [combineLevel]
    | case2 x => simp [combineLevel]
    | case3 x y rest2 ih =>
      simp only [combineLevel, List.length_cons, ih]
      omega
  unfold padEven
  by_cases hodd : (x :: y :: rest).length % 2 = 0
  · rw [if_pos hodd, hlen]
    simp only [List.length_cons] at hodd ⊢
    omega
  · rw [if_neg hodd, hlen]
    simp only [List.length_append, List.length_cons, List.length_nil] at hodd ⊢
    omega

/-- Concrete ledger objects for witnesses and counterexamples: a fresh ledger
over `hashC` with difficulty 3 and genesis timestamp 0. -/
def WgL : Ledger := Ledger.init hashC 3 0

/-- A transaction whose sender contains the serialization separator. -/
def Wt : Transaction :=
  { sender := "a|b", receiver := "c", amount := 1, signature := "s",
    type := .standardPayment, data := "" }

/-- A different transaction with the same serialization as `Wt`. -/
def Wt2 : Transaction :=
  { sender := "a", receiver := "b|c", amount := 1, signature := "s",
    type := .standardPayment, data := "" }

/-- Block 1 holding `Wt`, linked to the genesis tip, with its cached hash
freshly recomputed. -/
def Wbt : Block :=
  Block.recompute_hash hashC
    { Block.mkNew 1 WgL.current_chain_tip_hash 2 0 with transactions := [Wt] }

/-- Two-block ledger obtained by add_block of `Wbt` onto the fresh ledger. -/
def W2 : Ledger := (WgL.add_block_run Wbt).1

/-- The block `Wbt` after mutating its transaction from `Wt` to `Wt2`. -/
def Wbt2 : Block := { Wbt with transactions := [Wt2] }

/-- A third block linked to the recomputed hash of `Wbt`, with its own cached
hash freshly recomputed. -/
def Wb2 : Block := Block.recompute_hash hashC (Block.mkNew 2 Wbt.block_hash 2 0)

/-- Three-block ledger obtained by add_block of `Wb2` onto `W2`. -/
def W3 : Ledger := (W2.add_block_run Wb2).1

/-- A block whose previous hash does not match the fresh ledger's tip. -/
def Wbad : Block := Block.mkNew 1 "zz" 2 0

/-- A transaction exercising every serialization field. -/
def mtx : Transaction :=
  { sender := "a", receiver := "b", amount := 1, signature := "s",
    type := .standardPayment, data := "d" }

/-- A fresh ledger carrying one fork of tracked length 1 while the height
counter is still 0. -/
def L9 : Ledger := (Ledger.init hashC 3 0).add_fork_block "t" (Block.mkNew 1 "x" 2 0)

/-- Constant draw sequence (value 0: dishonest) for run_cycle witnesses. -/
def dW : Nat → Nat := fun _ => 0

/-- The single participant of a one-participant engine after one cycle. -/
def pW : Participant := (((PoSygEngine.init 1).run_cycle dW).participants).headD default

/-- One-participant engine whose participant has been slashed. -/
def eSlashed : PoSygEngine := applyOp (.applySlash 0) (PoSygEngine.init 1)

/-- The slashed participant of `eSlashed`. -/
def qW : Participant := eSlashed.participants.headD default

/-- The genesis block of the fresh witness ledger. -/
def Wg0 : Block := WgL.chain.headD default

/-- The ledger `W2` after mutating the transactions of its tip block `Wbt`
to `[mtx]`, a mutation that changes the concatenated serialization. -/
def W2tipMut : Ledger := { W2 with chain := [Wg0, { Wbt with transactions := [mtx] }] }

/-- The ledger `W3` after mutating the middle block's transaction from `Wt`
to the different transaction `Wt2` with the same serialization. -/
def W3col : Ledger := { W3 with chain := [Wg0, Wbt2, Wb2] }

/-- A block linked to the genesis cached hash whose own cached hash was never
computed (empty), as the blocks of the repository's own ledger flow are
before any calculate_block_hash call. -/
def WbE : Block := Block.mkNew 1 Wg0.block_hash 2 0

/-- Two-block ledger whose second block carries an empty (stale) cached
hash. -/
def WstaleL : Ledger := { WgL with chain := [Wg0, WbE] }

/-- The invariant of the Synergy Registry: a slashed participant has synergy
exactly zero. -/
def SlashedZero (e : PoSygEngine) : Prop :=
  ∀ p ∈ e.participants, p.slashed = true → p.synergy = 0

theorem hashC_inj : Function.Injective hashC := by
  intro a b h
  have hd : Char.ofNat 35 :: a.data = Char.ofNat 35 :: b.data := congrArg String.data h
  exact congrArg String.mk (List.tail_eq_of_cons_eq hd)

theorem string_append_left_cancel {s a b : String} (h : s ++ a = s ++ b) : a = b := by
  have hd := congrArg String.data h
  simp at hd
  exact congrArg String.mk hd

theorem combineLevel_length (hash : String → String) (l : List String) :
    (combineLevel hash l).length = l.length / 2 := by
  induction l using combineLevel.induct hash with
  | case1 => simp [combineLevel]
  | case2 x => simp [combineLevel]
  | case3 x y rest ih =>
    simp only [combineLevel, List.length_cons, ih]
    omega

/-- C3: Ledger::add_block succeeds exactly when the block's previous hash
matches the current tip; on success it appends the block, increments the
height counter and moves the tip to the block's cached hash; on a mismatch it
throws the chain-linkage error and the caller-visible state is unchanged. -/
theorem add_block_spec (l : Ledger) (b : Block)
    (hno : l.current_block_number + 1 < usizeSize) :
    (addBlockOk l b = true ↔ b.previous_block_hash = l.current_chain_tip_hash)
    ∧ (b.previous_block_hash = l.current_chain_tip_hash →
        l.add_block b = .ok { l with
          chain := l.chain ++ [b],
          current_block_number := l.current_block_number + 1,
          current_chain_tip_hash := b.block_hash })
    ∧ (¬ b.previous_block_hash = l.current_chain_tip_hash →
        l.add_block b = .error chainLinkageMsg ∧ l.add_block_run b = (l, false)) := by
  have hmod : usizeMod (l.current_block_number + 1) = l.current_block_number + 1 :=
    Nat.mod_eq_of_lt hno
  refine ⟨?_, ?_, ?_⟩
  · by_cases h : b.previous_block_hash = l.current_chain_tip_hash <;>
      simp [addBlockOk, Ledger.add_block, h]
  · intro h
    simp [Ledger.add_block, h, hmod]
  · intro h
    constructor
    · simp [Ledger.add_block, h]
    · simp [Ledger.add_block_run, Ledger.add_block, h]

theorem add_block_spec_witness :
    WgL.add_block Wbt = .ok { WgL with
      chain := WgL.chain ++ [Wbt],
      current_block_number := WgL.current_block_number + 1,
      current_chain_tip_hash := Wbt.block_hash }
    ∧ WgL.add_block Wbad = .error chainLinkageMsg :=
  ⟨(add_block_spec WgL Wbt (by decide)).2.1 (by decide),
   ((add_block_spec WgL Wbad (by decide)).2.2 (by decide)).1⟩

theorem sign_block_req (b : Block) (s : String) :
    ((b.sign_block s).1).required_signatures = b.required_signatures := by
  unfold Block.sign_block
  split <;> rfl

theorem sign_block_len_le (b : Block) (s : String)
    (h : b.validator_signatures.length ≤ b.required_signatures) :
    ((b.sign_block s).1).validator_signatures.length ≤ b.required_signatures := by
  unfold Block.sign_block
  split
  · simp only [List.length_append, List.length_cons, List.length_nil]
    omega
  · simpa using h

theorem signSeq_bound (sigs : List String) : ∀ b : Block,
    b.validator_signatures.length ≤ b.required_signatures →
    (signSeq b sigs).validator_signatures.length ≤ b.required_signatures := by
  induction sigs with
  | nil =>
    intro b h
    simpa [signSeq] using h
  | cons s rest ih =>
    intro b h
    have hstep : signSeq b (s :: rest) = signSeq (b.sign_block s).1 rest := rfl
    rw [hstep]
    have hreq := sign_block_req b s
    have := ih (b.sign_block s).1 (by rw [hreq]; exact sign_block_len_le b s h)
    rwa [hreq] at this

/-- C4: sign_block appends and returns true strictly below the threshold,
returns false without appending at or above it; any call sequence starting
from a freshly constructed block keeps the count at or below
required_signatures; and verify_signatures holds exactly at or above the
threshold. -/
theorem sign_block_threshold (b : Block) (s : String) (sigs : List String)
    (n r ts : Nat) (prev : String) :
    (b.validator_signatures.length < b.required_signatures →
      b.sign_block s =
        ({ b with validator_signatures := b.validator_signatures ++ [s] }, true))
    ∧ (b.required_signatures ≤ b.validator_signatures.length →
        b.sign_block s = (b, false))
    ∧ (signSeq (Block.mkNew n prev r ts) sigs).validator_signatures.length ≤ r
    ∧ (b.verify_signatures = true ↔
        b.required_signatures ≤ b.validator_signatures.length) := by
  refine ⟨?_, ?_, ?_, ?_⟩
  · intro h
    simp [Block.sign_block, h]
  · intro h
    simp [Block.sign_block, Nat.not_lt.mpr h]
  · have h0 : (Block.mkNew n prev r ts).validator_signatures.length ≤
        (Block.mkNew n prev r ts).required_signatures := by
      simp [Block.mkNew]
    simpa [Block.mkNew] using signSeq_bound sigs (Block.mkNew n prev r ts) h0
  · simp [Block.verify_signatures]

theorem sign_block_threshold_witness :
    (Block.mkNew 0 "p" 2 0).sign_block "a" =
      ({ Block.mkNew 0 "p" 2 0 with
          validator_signatures := (Block.mkNew 0 "p" 2 0).validator_signatures ++ ["a"] }, true)
    ∧ (signSeq (Block.mkNew 0 "p" 2 0) ["a", "b", "c"]).validator_signatures.length ≤ 2 :=
  ⟨(sign_block_threshold (Block.mkNew 0 "p" 2 0) "a" [] 0 2 0 "p").1 (by decide),
   (sign_block_threshold (Block.mkNew 0 "p" 2 0) "a" ["a", "b", "c"] 0 2 0 "p").2.2.1⟩

theorem convertLoop_spec (rate : ℚ) (ps : List Participant) :
    (convertLoop rate ps).1 =
      ps.map (fun p => if p.slashed then p else { p with synergy := 0 })
    ∧ (convertLoop rate ps).2 =
      ((ps.filter (fun p => !p.slashed)).map (fun p => p.synergy * rate)).sum := by
  induction ps with
  | nil => simp [convertLoop]
  | cons p rest ih =>
    by_cases h : p.slashed <;> simp [convertLoop, h, ih.1, ih.2]

theorem convert_twice_zero (rate2 : ℚ) (ps : List Participant) :
    ((((ps.map (fun p => if p.slashed then p else { p with synergy := 0 })).filter
      (fun p => !p.slashed)).map (fun p => p.synergy * rate2)).sum) = 0 := by
  induction ps with
  | nil => simp
  | cons p rest ih =>
    by_cases h : p.slashed <;> simp [h, ih]

/-- C6: convert_synergy_to_tokens returns the sum of pre-call synergy times
rate over the non-slashed participants, zeroes every non-slashed synergy,
leaves slashed participants unchanged, and an immediately repeated call
returns zero. -/
theorem convert_synergy_spec (e : PoSygEngine) (rate rate2 : ℚ) :
    (e.convert_synergy_to_tokens rate).2 =
      ((e.participants.filter (fun p => !p.slashed)).map (fun p => p.synergy * rate)).sum
    ∧ (e.convert_synergy_to_tokens rate).1.participants =
      e.participants.map (fun p => if p.slashed then p else { p with synergy := 0 })
    ∧ ((e.convert_synergy_to_tokens rate).1.convert_synergy_to_tokens rate2).2 = 0 := by
  have h1 := convertLoop_spec rate e.participants
  refine ⟨h1.2, h1.1, ?_⟩
  have hfst : (e.convert_synergy_to_tokens rate).1.participants =
      (convertLoop rate e.participants).1 := rfl
  have hsnd : ((e.convert_synergy_to_tokens rate).1.convert_synergy_to_tokens rate2).2 =
      (convertLoop rate2 (e.convert_synergy_to_tokens rate).1.participants).2 := rfl
  rw [hsnd, (convertLoop_spec rate2 _).2, hfst, h1.1]
  exact convert_twice_zero rate2 e.participants

/-- C10: handle_multisig signs only the local copy of its argument; the
coordinator state (current block, ledger, registry) it returns is exactly the
input state, and the signed copy is merely returned to be dropped. -/
theorem handle_multisig_frame (c : Consensus) (block : Block) :
    (c.handle_multisig block).1 = c
    ∧ (c.handle_multisig block).1.current_block = c.current_block
    ∧ (c.handle_multisig block).1.ledger = c.ledger
    ∧ (c.handle_multisig block).1.engine = c.engine
    ∧ (c.handle_multisig block).2 = multisigLoop block c.num_validators :=
  ⟨rfl, rfl, rfl, rfl, rfl⟩

/-- C1 (code bug): finalize_block only stores the block into current_block
and broadcasts the finalization notice; it never reaches the Chain Store, and
a whole initiate_consensus round leaves the ledger untouched on every path,
with finalize_block invoked regardless of the collected signature count. -/
theorem finalize_block_no_append (c : Consensus) (block : Block) (ts : Nat) :
    (c.finalize_block block).ledger = c.ledger
    ∧ (c.finalize_block block).ledger.chain = c.ledger.chain
    ∧ (c.finalize_block block).current_block = block
    ∧ (c.finalize_block block).sent =
        c.sent ++ [(0, "Finalized block with hash: " ++ block.block_hash)]
    ∧ (c.initiate_consensus ts).ledger = c.ledger := by
  refine ⟨rfl, rfl, rfl, rfl, ?_⟩
  unfold Consensus.initiate_consensus
  by_cases h : (c.dynamic_network_management).validate_block
      ((c.dynamic_network_management).create_new_block ts) = true
  · simp only [h, if_true]
    rfl
  · simp only [h, if_false]
    rfl

/-- C9 (code bug): on a fresh ledger (height counter 0) holding one fork of
tracked length 1, prune_forks computes the size_t value
current_block_number - 10 = 2 ^ 64 - 10 and therefore erases the fork even
though it is not more than 10 blocks behind the chain height. -/
theorem prune_forks_underflow :
    L9.current_block_number = 0
    ∧ lookupD L9.fork_lengths "t" 0 = 1
    ∧ usizeSub L9.current_block_number 10 = usizeSize - 10
    ∧ (L9.prune_forks).forks = [] := by decide

theorem validateChainAux_head (hash : String → String) (h0 : String) (x : Block)
    (rest : List Block) (h : validateChainAux hash h0 (x :: rest) = true) :
    x.previous_block_hash = h0
    ∧ validateChainAux hash (x.calculate_block_hash hash) rest = true := by
  simpa [validateChainAux, Bool.and_eq_true, beq_iff_eq] using h

theorem validateChainAux_chain (hash : String → String) :
    ∀ (xs : List Block) (h0 : String), validateChainAux hash h0 xs = true →
      List.Chain' (fun x y => y.previous_block_hash = x.calculate_block_hash hash) xs := by
  intro xs
  induction xs with
  | nil =>
    intro h0 _
    exact List.chain'_nil
  | cons x rest ih =>
    intro h0 h
    obtain ⟨_, hrest⟩ := validateChainAux_head hash h0 x rest h
    have hc := ih (x.calculate_block_hash hash) hrest
    cases rest with
    | nil => exact List.chain'_singleton x
    | cons y rest2 =>
      refine List.chain'_cons.mpr ⟨?_, hc⟩
      exact (validateChainAux_head hash _ y rest2 hrest).1

theorem carriedHash_cons_cons (hash : String → String) (h0 : String) (x y : Block)
    (ys : List Block) :
    carriedHash hash h0 (x :: y :: ys) = carriedHash hash h0 (y :: ys) := by
  simp [carriedHash, List.getLast?_cons_cons]

theorem carriedHash_irrel (hash : String → String) (h0 h1 : String) :
    ∀ (y : Block) (ys : List Block),
      carriedHash hash h0 (y :: ys) = carriedHash hash h1 (y :: ys) := by
  intro y ys
  induction ys generalizing y with
  | nil => rfl
  | cons z zs ih =>
    rw [carriedHash_cons_cons, carriedHash_cons_cons]
    exact ih z

theorem carriedHash_cons (hash : String → String) (h0 : String) (x : Block)
    (xs : List Block) :
    carriedHash hash h0 (x :: xs) =
      carriedHash hash (x.calculate_block_hash hash) xs := by
  cases xs with
  | nil => rfl
  | cons y ys =>
    rw [carriedHash_cons_cons]
    exact carriedHash_irrel hash h0 _ y ys

theorem validateChainAux_append (hash : String → String) :
    ∀ (xs rest : List Block) (h0 : String),
      validateChainAux hash h0 (xs ++ rest) =
        (validateChainAux hash h0 xs
          && validateChainAux hash (carriedHash hash h0 xs) rest) := by
  intro xs
  induction xs with
  | nil =>
    intro rest h0
    simp [validateChainAux, carriedHash]
  | cons x xs2 ih =>
    intro rest h0
    simp only [List.cons_append, validateChainAux, List.append_eq, ih, carriedHash_cons,
      Bool.and_assoc]

/-- C2 (amended): for every chain accepted by validate_chain, each adjacent
pair satisfies previous-hash linkage as revalidation sees it — the first pair
against block 0's cached hash and every later pair against the predecessor's
freshly recomputed hash; the stored-equals-recomputed self-check of part_009
line 59 is inoperative (both of its operands alias the cache that
calculate_block_hash just overwrote), so acceptance does not constrain cached
hashes; and, for an injective hash, mutating the transactions of a
non-genesis block that has a successor, in a way that changes their
concatenated serialization, makes validate_chain return false. -/
theorem validate_chain_charn (hash : String → String) (hinj : Function.Injective hash)
    (l : Ledger) (hv : l.validate_chain hash = true) :
    (∀ g b1 rest, l.chain = g :: b1 :: rest →
      b1.previous_block_hash = g.block_hash
      ∧ List.Chain' (fun x y => y.previous_block_hash = x.calculate_block_hash hash)
          (b1 :: rest))
    ∧ ∀ pre b c post txs2, l.chain = pre ++ b :: c :: post → pre ≠ [] →
        txConcat txs2 ≠ txConcat b.transactions →
        Ledger.validate_chain hash
          { l with chain := pre ++ { b with transactions := txs2 } :: c :: post } = false := by
  constructor
  · intro g b1 rest hchain
    have hv2 : validateChainAux hash g.block_hash (b1 :: rest) = true := by
      have hx := hv
      unfold Ledger.validate_chain at hx
      rwa [hchain] at hx
    exact ⟨(validateChainAux_head hash _ b1 rest hv2).1,
      validateChainAux_chain hash _ _ hv2⟩
  · intro pre b c post txs2 hchain hpre htx
    cases pre with
    | nil => exact absurd rfl hpre
    | cons ph pt =>
      have hvaux : validateChainAux hash ph.block_hash (pt ++ b :: c :: post) = true := by
        have hx := hv
        unfold Ledger.validate_chain at hx
        rw [hchain] at hx
        simpa [List.cons_append] using hx
      rw [validateChainAux_append] at hvaux
      simp only [Bool.and_eq_true] at hvaux
      obtain ⟨hpt, htail⟩ := hvaux
      obtain ⟨hblink, htail2⟩ := validateChainAux_head hash _ b _ htail
      have hclink : c.previous_block_hash = b.calculate_block_hash hash :=
        (validateChainAux_head hash _ c post htail2).1
      have hcalc_ne : c.previous_block_hash ≠
          Block.calculate_block_hash hash { b with transactions := txs2 } := by
        rw [hclink]
        intro heq
        have heq2 : hash (b.previous_block_hash ++ toString b.timestamp ++
              txConcat b.transactions) =
            hash (b.previous_block_hash ++ toString b.timestamp ++ txConcat txs2) := by
          simpa [Block.calculate_block_hash] using heq
        exact htx (string_append_left_cancel (hinj heq2)).symm
      have hgoal : Ledger.validate_chain hash
          { l with chain := (ph :: pt) ++ { b with transactions := txs2 } :: c :: post } =
          validateChainAux hash ph.block_hash
            (pt ++ { b with transactions := txs2 } :: c :: post) := by
        simp [Ledger.validate_chain, List.cons_append]
      rw [hgoal, validateChainAux_append]
      have hb2 : validateChainAux hash (carriedHash hash ph.block_hash pt)
          ({ b with transactions := txs2 } :: c :: post) = false := by
        simp only [validateChainAux]
        have hfalse : (c.previous_block_hash ==
            Block.calculate_block_hash hash { b with transactions := txs2 }) = false :=
          beq_eq_false_iff_ne.mpr hcalc_ne
        rw [hfalse]
        simp
      rw [hb2]
      simp

theorem validate_chain_charn_witness :
    Ledger.validate_chain hashC
      { W3 with chain := [Wg0] ++ { Wbt with transactions := [mtx] } :: Wb2 :: [] } = false :=
  (validate_chain_charn hashC hashC_inj W3 (by decide)).2 [Wg0] Wbt Wb2 [] [mtx]
    (by decide) (by decide) (by decide)

/-- C2 counterexample: the accepted two-block ledger `W2` stays accepted when
the transactions of its tip block are replaced by `[mtx]`, a mutation that
changes the serialization (the tip has no successor and its own self-check is
dead); the accepted three-block ledger `W3` stays accepted when its middle
block's transaction `Wt` is mutated into the different transaction `Wt2`
with the same serialization; and a chain whose second block carries an empty
stale cached hash is accepted even though its stored hash differs from its
recomputation — refuting both the mutation-detection and the
stored-equals-recomputed halves of the claim. -/
theorem validate_chain_mutation_cex :
    Ledger.validate_chain hashC W2 = true
    ∧ W2.chain = [Wg0, Wbt]
    ∧ Wbt.transactions = [Wt]
    ∧ txConcat [mtx] ≠ txConcat [Wt]
    ∧ W2tipMut.chain = [Wg0, { Wbt with transactions := [mtx] }]
    ∧ Ledger.validate_chain hashC W2tipMut = true
    ∧ Wt ≠ Wt2
    ∧ Ledger.validate_chain hashC W3 = true
    ∧ W3col.chain = [Wg0, { Wbt with transactions := [Wt2] }, Wb2]
    ∧ Ledger.validate_chain hashC W3col = true
    ∧ Ledger.validate_chain hashC WstaleL = true
    ∧ WbE.block_hash ≠ WbE.calculate_block_hash hashC := by decide

theorem merkleLoop_eq_spec (hash : String → String) :
    ∀ hs : List String, merkleLoop hash hs = merkleSpec hash hs := by
  intro hs
  induction hs using merkleSpec.induct hash with
  | case1 =>
    rw [merkleLoop, merkleSpec]
    simp
  | case2 x =>
    rw [merkleLoop, merkleSpec]
    simp
  | case3 x y rest ih =>
    rw [merkleSpec, merkleLoop]
    have hlen2 : ¬ ((x :: y :: rest).length ≤ 1) := by simp
    rw [dif_neg hlen2]
    have hpad : (if (x :: y :: rest).length % 2 ≠ 0 then
        (x :: y :: rest) ++ [((x :: y :: rest).getLast?).getD ""]
        else (x :: y :: rest)) = padEven (x :: y :: rest) := by
      unfold padEven
      rcases Nat.mod_two_eq_zero_or_one (x :: y :: rest).length with hodd | hodd <;>
        simp only [List.length_cons] at hodd ⊢ <;> simp [hodd]
    rw [hpad]
    exact ih

/-- C8 (amended): calculate_merkle_root equals the declarative level-by-level
pairwise combination with duplicate padding applied to the leaf hashes, where
a leaf is the hash of sender, receiver, std::to_string(amount) and signature
concatenated without separators (type and data are not hashed); the empty
transaction list gives the empty root. -/
theorem calculate_merkle_root_amended (hash : String → String) (txs : List Transaction) :
    Ledger.calculate_merkle_root hash txs = merkleSpec hash (txs.map (merkleLeaf hash))
    ∧ Ledger.calculate_merkle_root hash [] = "" := by
  constructor
  · unfold Ledger.calculate_merkle_root
    by_cases he : txs.isEmpty
    · have hnil : txs = [] := by
        cases txs with
        | nil => rfl
        | cons a t => simp [List.isEmpty] at he
      subst hnil
      simp [merkleSpec]
    · rw [if_neg he, merkleLoop_eq_spec]
  · rfl

/-- C8 counterexample: for a transaction with every field set, the merkle leaf
is not the hash of the canonical serialization; the computed root hashes
sender, receiver, std::to_string(amount) and signature only, with no
separators and without type or data. -/
theorem merkle_leaf_cex :
    Ledger.calculate_merkle_root hashC [mtx] ≠ hashC (Transaction.serialize mtx)
    ∧ Ledger.calculate_merkle_root hashC [mtx] =
      hashC (mtx.sender ++ mtx.receiver ++ toStdStringDouble mtx.amount ++ mtx.signature) := by
  have hroot : Ledger.calculate_merkle_root hashC [mtx] = merkleLeaf hashC mtx := by
    unfold Ledger.calculate_merkle_root
    rw [if_neg (by decide)]
    have hmap : ([mtx].map (merkleLeaf hashC)) = [merkleLeaf hashC mtx] := rfl
    rw [hmap, merkleLoop]
    simp
  constructor
  · rw [hroot]
    decide
  · rw [hroot]
    rfl

theorem usizeSub_of_le {a b : Nat} (hb : b ≤ a) (ha : a < usizeSize) :
    usizeSub a b = a - b := by
  have hs : usizeSize = 18446744073709551616 := by norm_num [usizeSize]
  unfold usizeSub
  rw [hs] at ha ⊢
  omega

theorem linkedB_first : ∀ (c : List Block) (b : Block) (tl : List Block), c ≠ [] →
    linkedB (c ++ b :: tl) = true → b.previous_block_hash = tipOf c := by
  intro c
  induction c with
  | nil =>
    intro b tl h
    exact absurd rfl h
  | cons x cr ih =>
    intro b tl _ h
    cases cr with
    | nil =>
      simp only [List.cons_append, List.nil_append, linkedB, Bool.and_eq_true,
        beq_iff_eq] at h
      simpa [tipOf] using h.1
    | cons y cr2 =>
      simp only [List.cons_append, linkedB, Bool.and_eq_true] at h
      have htl := ih b tl (by simp) (by simpa [List.cons_append] using h.2)
      simpa [tipOf, List.getLast?_cons_cons] using htl

theorem addBlocks_restore (bs : List Block) : ∀ (l : Ledger), l.chain ≠ [] →
    l.current_chain_tip_hash = tipOf l.chain →
    linkedB (l.chain ++ bs) = true →
    ∃ l2, addBlocks l bs = .ok l2 ∧ l2.chain = l.chain ++ bs ∧
      l2.current_chain_tip_hash = tipOf (l.chain ++ bs) := by
  induction bs with
  | nil =>
    intro l _ htip _
    exact ⟨l, rfl, by simp, by simpa using htip⟩
  | cons b rest ih =>
    intro l hne htip hlink
    have hprev : b.previous_block_hash = l.current_chain_tip_hash := by
      rw [htip]
      exact linkedB_first l.chain b rest hne hlink
    have hadd : l.add_block b = .ok { l with
        chain := l.chain ++ [b],
        current_block_number := usizeMod (l.current_block_number + 1),
        current_chain_tip_hash := b.block_hash } := by
      simp [Ledger.add_block, hprev]
    have h1ne : (({ l with
        chain := l.chain ++ [b],
        current_block_number := usizeMod (l.current_block_number + 1),
        current_chain_tip_hash := b.block_hash } : Ledger)).chain ≠ [] := by
      simp
    have h1tip : (({ l with
        chain := l.chain ++ [b],
        current_block_number := usizeMod (l.current_block_number + 1),
        current_chain_tip_hash := b.block_hash } : Ledger)).current_chain_tip_hash =
        tipOf (l.chain ++ [b]) := by
      simp [tipOf, List.getLast?_concat]
    have h1link : linkedB ((l.chain ++ [b]) ++ rest) = true := by
      simpa [List.append_assoc] using hlink
    obtain ⟨l2, hadd2, hchain2, htip2⟩ := ih { l with
        chain := l.chain ++ [b],
        current_block_number := usizeMod (l.current_block_number + 1),
        current_chain_tip_hash := b.block_hash } h1ne h1tip h1link
    refine ⟨l2, ?_, ?_, ?_⟩
    · show (match l.add_block b with
        | .ok l1 => addBlocks l1 rest
        | .error e => .error e) = .ok l2
      rw [hadd]
      exact hadd2
    · rw [hchain2]
      simp [List.append_assoc]
    · rw [htip2]
      congr 1
      simp [List.append_assoc]

/-- C7: for 0 < k < n, rollback_chain(k) reports success, truncates the last
k blocks, decrements the height counter by k and resets the tip to the new
last block's cached hash; re-appending the removed suffix through add_block
restores the original chain, its length, and the original tip hash; and for
k at or above the chain length, rollback_chain fails and changes nothing. -/
theorem rollback_roundtrip (l : Ledger) (k : Nat)
    (hlink : linkedB l.chain = true)
    (htip : l.current_chain_tip_hash = tipOf l.chain)
    (hk0 : 0 < k) (hkn : k < l.chain.length)
    (hcbn : k ≤ l.current_block_number) (hcb : l.current_block_number < usizeSize) :
    (l.rollback_chain k).2 = true
    ∧ (l.rollback_chain k).1.chain = l.chain.take (l.chain.length - k)
    ∧ (l.rollback_chain k).1.current_block_number = l.current_block_number - k
    ∧ (l.rollback_chain k).1.current_chain_tip_hash =
        tipOf (l.chain.take (l.chain.length - k))
    ∧ (∃ l2, addBlocks (l.rollback_chain k).1 (l.chain.drop (l.chain.length - k)) = .ok l2
        ∧ l2.chain = l.chain ∧ l2.chain.length = l.chain.length
        ∧ l2.current_chain_tip_hash = l.current_chain_tip_hash)
    ∧ (∀ k2, l.chain.length ≤ k2 → l.rollback_chain k2 = (l, false)) := by
  have hnot : ¬ l.chain.length ≤ k := Nat.not_le.mpr hkn
  have h2 : (l.rollback_chain k).1 = { l with
      chain := l.chain.take (l.chain.length - k),
      current_block_number := usizeSub l.current_block_number k,
      current_chain_tip_hash :=
        (((l.chain.take (l.chain.length - k)).getLast?).getD default).block_hash } := by
    simp [Ledger.rollback_chain, hnot]
  refine ⟨by simp [Ledger.rollback_chain, hnot], by rw [h2], ?_, ?_, ?_, ?_⟩
  · rw [h2]
    exact usizeSub_of_le hcbn hcb
  · rw [h2]
    rfl
  · have htake_ne : l.chain.take (l.chain.length - k) ≠ [] := by
      have hlen : (l.chain.take (l.chain.length - k)).length = l.chain.length - k := by
        rw [List.length_take]
        omega
      intro hnil
      rw [hnil] at hlen
      simp at hlen
      omega
    have hlink2 : linkedB ((l.rollback_chain k).1.chain ++
        l.chain.drop (l.chain.length - k)) = true := by
      rw [h2]
      show linkedB (l.chain.take (l.chain.length - k) ++
        l.chain.drop (l.chain.length - k)) = true
      rw [List.take_append_drop]
      exact hlink
    have htip2 : (l.rollback_chain k).1.current_chain_tip_hash =
        tipOf ((l.rollback_chain k).1.chain) := by
      rw [h2]
      rfl
    obtain ⟨l2, ha, hc, ht⟩ := addBlocks_restore (l.chain.drop (l.chain.length - k))
      ((l.rollback_chain k).1) (by rw [h2]; exact htake_ne) htip2 hlink2
    refine ⟨l2, ha, ?_, ?_, ?_⟩
    · rw [hc, h2]
      show l.chain.take (l.chain.length - k) ++ l.chain.drop (l.chain.length - k) = l.chain
      exact List.take_append_drop _ _
    · rw [hc, h2]
      show (l.chain.take (l.chain.length - k) ++
        l.chain.drop (l.chain.length - k)).length = l.chain.length
      rw [List.take_append_drop]
    · rw [ht, h2, htip]
      show tipOf (l.chain.take (l.chain.length - k) ++
        l.chain.drop (l.chain.length - k)) = tipOf l.chain
      rw [List.take_append_drop]
  · intro k2 hk2
    simp [Ledger.rollback_chain, hk2]

theorem rollback_roundtrip_witness :
    (W2.rollback_chain 1).2 = true
    ∧ (W2.rollback_chain 1).1.chain = W2.chain.take (W2.chain.length - 1)
    ∧ (W2.rollback_chain 1).1.current_block_number = W2.current_block_number - 1 := by
  have h := rollback_roundtrip W2 1 (by decide) (by decide) (by decide) (by decide)
    (by decide) (by decide)
  exact ⟨h.1, h.2.1, h.2.2.1⟩

theorem clampSynergy_nonneg (q : Participant) : 0 ≤ (clampSynergy q).synergy := by
  unfold clampSynergy
  split
  · simp
  · rename_i hlt
    exact le_of_not_lt hlt

theorem clampSynergy_pres (q : Participant) (hq : q.slashed = true → q.synergy = 0) :
    (clampSynergy q).slashed = true → (clampSynergy q).synergy = 0 := by
  unfold clampSynergy
  split
  · simp
  · exact hq

theorem update_synergy_nonneg (p : Participant) : 0 ≤ (p.update_synergy).synergy := by
  unfold Participant.update_synergy
  exact clampSynergy_nonneg _

theorem update_synergy_pres (p : Participant) (hp : p.slashed = true → p.synergy = 0) :
    (p.update_synergy).slashed = true → (p.update_synergy).synergy = 0 := by
  unfold Participant.update_synergy
  apply clampSynergy_pres
  split_ifs with h1 h2 h3 <;> simp_all [Participant.apply_slash]
  split <;> simp_all

theorem apply_slash_pres (p : Participant) (hp : p.slashed = true → p.synergy = 0) :
    (p.apply_slash).slashed = true → (p.apply_slash).synergy = 0 := by
  unfold Participant.apply_slash
  split
  · exact hp
  · simp

theorem apply_slash_nonneg (p : Participant) (h0 : 0 ≤ p.synergy) :
    0 ≤ (p.apply_slash).synergy := by
  unfold Participant.apply_slash
  split
  · exact h0
  · simp

theorem restore_pres (p : Participant) (hp : p.slashed = true → p.synergy = 0) :
    (p.restore_after_slash).slashed = true → (p.restore_after_slash).synergy = 0 := by
  unfold Participant.restore_after_slash
  split
  · simp
  · exact hp

theorem cycleStep_nonneg (v : Nat) (p : Participant) : 0 ≤ (cycleStep v p).synergy :=
  update_synergy_nonneg _

theorem cycleStep_pres (v : Nat) (p : Participant)
    (hp : p.slashed = true → p.synergy = 0) :
    (cycleStep v p).slashed = true → (cycleStep v p).synergy = 0 := by
  unfold cycleStep
  exact update_synergy_pres _ (by simpa using hp)

theorem cycleLoop_mem (draws : Nat → Nat) : ∀ (i : Nat) (ps : List Participant)
    (q : Participant), q ∈ cycleLoop draws i ps → ∃ v p, p ∈ ps ∧ q = cycleStep v p := by
  intro i ps
  induction ps generalizing i with
  | nil =>
    intro q hq
    simp [cycleLoop] at hq
  | cons p rest ih =>
    intro q hq
    simp only [cycleLoop, List.mem_cons] at hq
    rcases hq with hq | hq
    · exact ⟨draws i, p, List.mem_cons_self _ _, hq⟩
    · obtain ⟨v, p2, hp2, hq2⟩ := ih (i + 1) q hq
      exact ⟨v, p2, List.mem_cons_of_mem _ hp2, hq2⟩

theorem cycleLoop_length (draws : Nat → Nat) : ∀ (i : Nat) (ps : List Participant),
    (cycleLoop draws i ps).length = ps.length := by
  intro i ps
  induction ps generalizing i with
  | nil => simp [cycleLoop]
  | cons p rest ih => simp [cycleLoop, ih]

theorem listModify_mem {α} (f : α → α) : ∀ (l : List α) (i : Nat) (q : α),
    q ∈ listModify l i f → q ∈ l ∨ ∃ p, p ∈ l ∧ q = f p := by
  intro l
  induction l with
  | nil =>
    intro i q hq
    simp [listModify] at hq
  | cons x rest ih =>
    intro i q hq
    cases i with
    | zero =>
      simp only [listModify, List.mem_cons] at hq
      rcases hq with hq | hq
      · exact Or.inr ⟨x, List.mem_cons_self _ _, hq⟩
      · exact Or.inl (List.mem_cons_of_mem _ hq)
    | succ n =>
      simp only [listModify, List.mem_cons] at hq
      rcases hq with hq | hq
      · exact Or.inl (by simp [hq])
      · rcases ih n q hq with h | ⟨p, hp, hqq⟩
        · exact Or.inl (List.mem_cons_of_mem _ h)
        · exact Or.inr ⟨p, List.mem_cons_of_mem _ hp, hqq⟩

theorem listModify_get {α} (f : α → α) : ∀ (l : List α) (i : Nat),
    (listModify l i f).get? i = (l.get? i).map f := by
  intro l
  induction l with
  | nil =>
    intro i
    cases i <;> simp [listModify]
  | cons x rest ih =>
    intro i
    cases i with
    | zero => simp [listModify]
    | succ n => simpa [listModify] using ih n

theorem adjust_participants (e : PoSygEngine) :
    (e.adjust_network_parameters).participants = e.participants := by
  simp only [PoSygEngine.adjust_network_parameters]
  split <;> rfl

theorem slashedZero_map (f : Participant → Participant)
    (hf : ∀ p : Participant, (p.slashed = true → p.synergy = 0) →
      ((f p).slashed = true → (f p).synergy = 0))
    (e : PoSygEngine) (he : SlashedZero e) :
    SlashedZero { e with participants := e.participants.map f } := by
  intro q hq
  obtain ⟨p, hp, rfl⟩ := List.mem_map.mp hq
  exact hf p (he p hp)

theorem slashedZero_modify (i : Nat) (f : Participant → Participant)
    (hf : ∀ p : Participant, (p.slashed = true → p.synergy = 0) →
      ((f p).slashed = true → (f p).synergy = 0))
    (e : PoSygEngine) (he : SlashedZero e) :
    SlashedZero (e.modifyParticipant i f) := by
  intro q hq
  rcases listModify_mem f e.participants i q hq with h | ⟨p, hp, hqf⟩
  · exact he q h
  · subst hqf
    exact hf p (he p hp)

theorem slashedZero_foldl_modify (f : Participant → Participant)
    (hf : ∀ p : Participant, (p.slashed = true → p.synergy = 0) →
      ((f p).slashed = true → (f p).synergy = 0)) :
    ∀ (vs : List Nat) (e : PoSygEngine), SlashedZero e →
      SlashedZero (vs.foldl (fun acc i => acc.modifyParticipant i f) e) := by
  intro vs
  induction vs with
  | nil =>
    intro e he
    simpa using he
  | cons v rest ih =>
    intro e he
    exact ih _ (slashedZero_modify v f hf e he)

theorem slashedZero_process (e : PoSygEngine) (he : SlashedZero e) :
    SlashedZero e.process_slashing := by
  apply slashedZero_map _ _ e he
  intro p hp
  split
  · exact apply_slash_pres p hp
  · exact hp

theorem slashedZero_distribute (e : PoSygEngine) (he : SlashedZero e) :
    SlashedZero e.distribute_rewards := by
  simp only [PoSygEngine.distribute_rewards]
  split
  · apply slashedZero_map _ _ e he
    intro p hp
    by_cases hps : p.slashed
    · simpa [hps] using hp
    · simp [hps]
  · exact he

theorem slashedZero_runCycle (e : PoSygEngine) (draws : Nat → Nat)
    (he : SlashedZero e) : SlashedZero (e.run_cycle draws) := by
  unfold PoSygEngine.run_cycle
  apply slashedZero_distribute
  apply slashedZero_process
  intro q hq
  obtain ⟨v, p, hp, rfl⟩ := cycleLoop_mem draws 0 _ q hq
  apply cycleStep_pres
  apply he
  rwa [adjust_participants] at hp

theorem applyOp_pres (op : EngineOp) (e : PoSygEngine) (he : SlashedZero e) :
    SlashedZero (applyOp op e) := by
  cases op with
  | runCycle draws => exact slashedZero_runCycle e draws he
  | applySlashingMechanism => exact slashedZero_process e he
  | convert rate =>
    intro q hq
    have hpart : (applyOp (.convert rate) e).participants =
        e.participants.map (fun p => if p.slashed then p else { p with synergy := 0 }) :=
      (convertLoop_spec rate e.participants).1
    rw [hpart] at hq
    obtain ⟨p, hp, rfl⟩ := List.mem_map.mp hq
    by_cases hps : p.slashed
    · simpa [hps] using he p hp
    · simp [hps]
  | adjustParams =>
    intro q hq
    simp only [applyOp] at hq
    rw [adjust_participants e] at hq
    exact he q hq
  | applySlash i => exact slashedZero_modify i _ (fun p hp => apply_slash_pres p hp) e he
  | restore i => exact slashedZero_modify i _ (fun p hp => restore_pres p hp) e he
  | updateEconomic i c =>
    exact slashedZero_modify i _
      (fun p hp => by simpa [Participant.update_economic_activity] using hp) e he
  | consensusReward vs amount =>
    exact slashedZero_foldl_modify _ (fun p hp => by simpa using hp) vs e he
  | consensusValidateAndSlash vs =>
    apply slashedZero_foldl_modify _ _ vs e he
    intro p hp
    by_cases hd : p.detect_suspicious_behavior
    · simpa [hd] using apply_slash_pres p hp
    · simpa [hd] using hp

theorem reachable_slashedZero (e : PoSygEngine) (he : Reachable e) : SlashedZero e := by
  induction he with
  | init n =>
    intro p hp hsl
    simp only [PoSygEngine.init] at hp
    obtain ⟨i, _, rfl⟩ := List.mem_map.mp hp
    simp [Participant.mkNew] at hsl
  | step e2 op hr ih => exact applyOp_pres op e2 ih

theorem process_slashing_nonneg (e : PoSygEngine)
    (h : ∀ p ∈ e.participants, 0 ≤ p.synergy) :
    ∀ p ∈ (e.process_slashing).participants, 0 ≤ p.synergy := by
  intro q hq
  obtain ⟨p, hp, rfl⟩ := List.mem_map.mp hq
  split
  · exact apply_slash_nonneg p (h p hp)
  · exact h p hp

theorem distribute_rewards_nonneg (e : PoSygEngine)
    (h : ∀ p ∈ e.participants, 0 ≤ p.synergy) :
    ∀ p ∈ (e.distribute_rewards).participants, 0 ≤ p.synergy := by
  simp only [PoSygEngine.distribute_rewards]
  split
  · intro q hq
    obtain ⟨p, hp, rfl⟩ := List.mem_map.mp hq
    by_cases hps : p.slashed
    · simpa [hps] using h p hp
    · simpa [hps] using h p hp
  · exact h

theorem run_cycle_nonneg (e : PoSygEngine) (draws : Nat → Nat) :
    ∀ p ∈ (e.run_cycle draws).participants, 0 ≤ p.synergy := by
  unfold PoSygEngine.run_cycle
  apply distribute_rewards_nonneg
  apply process_slashing_nonneg
  intro q hq
  obtain ⟨v, p, _, rfl⟩ := cycleLoop_mem draws 0 _ q hq
  exact cycleStep_nonneg v p

theorem distribute_rewards_length (e : PoSygEngine) :
    (e.distribute_rewards).participants.length = e.participants.length := by
  simp only [PoSygEngine.distribute_rewards]
  split <;> simp

theorem process_slashing_length (e : PoSygEngine) :
    (e.process_slashing).participants.length = e.participants.length := by
  simp [PoSygEngine.process_slashing]

theorem run_cycle_length (e : PoSygEngine) (draws : Nat → Nat) :
    (e.run_cycle draws).participants.length = e.participants.length := by
  unfold PoSygEngine.run_cycle
  rw [distribute_rewards_length, process_slashing_length]
  simp [cycleLoop_length, adjust_participants]

theorem headD_mem {α} [Inhabited α] (l : List α) (h : l ≠ []) : l.headD default ∈ l := by
  cases l with
  | nil => exact absurd rfl h
  | cons a t => simp

theorem pW_mem : pW ∈ ((PoSygEngine.init 1).run_cycle dW).participants := by
  apply headD_mem
  intro hnil
  have hlen := congrArg List.length hnil
  rw [run_cycle_length] at hlen
  simp [PoSygEngine.init] at hlen

/-- C5: in every reachable registry state the slashed-implies-zero-synergy
invariant holds; run_cycle leaves no negative synergy; every registry
operation preserves the invariant; and restore_after_slash on a slashed
participant sets slashed to false and synergy to the fixed restore value. -/
theorem registry_invariants (e : PoSygEngine) (he : Reachable e)
    (draws : Nat → Nat) (op : EngineOp) (i : Nat) (q : Participant) :
    (∀ p ∈ (e.run_cycle draws).participants, 0 ≤ p.synergy)
    ∧ (∀ p ∈ e.participants, p.slashed = true → p.synergy = 0)
    ∧ (∀ p ∈ (applyOp op e).participants, p.slashed = true → p.synergy = 0)
    ∧ (e.participants.get? i = some q → q.slashed = true →
        (applyOp (.restore i) e).participants.get? i =
          some { q with slashed := false, synergy := INITIAL_RESTORE_SYNERGY }) := by
  have hsz := reachable_slashedZero e he
  refine ⟨run_cycle_nonneg e draws, hsz, applyOp_pres op e hsz, ?_⟩
  intro hget hsl
  show (listModify e.participants i Participant.restore_after_slash).get? i = _
  rw [listModify_get, hget]
  simp [Participant.restore_after_slash, hsl]

theorem registry_invariants_witness :
    0 ≤ pW.synergy
    ∧ (applyOp (.restore 0) eSlashed).participants.get? 0 =
        some { qW with slashed := false, synergy := INITIAL_RESTORE_SYNERGY } := by
  constructor
  · exact (registry_invariants (PoSygEngine.init 1) (Reachable.init 1) dW
      EngineOp.applySlashingMechanism 0 qW).1 pW pW_mem
  · exact (registry_invariants eSlashed
      (Reachable.step (PoSygEngine.init 1) (EngineOp.applySlash 0) (Reachable.init 1)) dW
      EngineOp.applySlashingMechanism 0 qW).2.2.2
      (by norm_num [eSlashed, qW, applyOp, PoSygEngine.modifyParticipant, listModify,
        PoSygEngine.init, Participant.mkNew, Participant.apply_slash, PARTICIPANT_HONEST,
        List.range, List.range.loop])
      (by norm_num [qW, eSlashed, applyOp, PoSygEngine.modifyParticipant, listModify,
        PoSygEngine.init, Participant.mkNew, Participant.apply_slash, PARTICIPANT_HONEST,
        List.range, List.range.loop])

end SynLedger
